import Mathlib

/-!
Verification development for the chunked authenticated-encryption transfer
pipeline of `raven-oss-tools` (Rust). The definitions below are a shallow
embedding of the relevant source functions:

  * `src/constant.rs`  — the fixed constants (nonce, AAD, salt, chunk sizes);
  * `src/crypt.rs`     — `encrypt`, `decrypt`, `derive_key`, `setup_key`,
                         `encrypt_file`/`decrypt_file`/`process_file`,
                         `get_crypt_file_name`;
  * `src/utils.rs`     — `FileChunkIterator::read_chunk`, `UnwrapOrExit`;
  * `src/client.rs`    — the chunk loops of `upload_file` and `download_file`.

Bytes are modelled as `Nat` (values below 256 in any real run; none of the
properties proved here depend on the bound). Byte strings are `List Nat`.

The AES-256-GCM and PBKDF2-HMAC-SHA256 primitives live in the external
`ring` crate, outside this repository. They are modelled here by abstract
executable functions (`keystream`, `gcmTag`, `pbkdf2_hmac_sha256`) that keep
exactly the structure the repository's code relies on: CTR-mode encryption is
a position-wise XOR against a keystream determined by (key, nonce), the tag
is a deterministic function of (key, nonce, aad, ciphertext), and the KDF is
a deterministic function of (iterations, salt, password) producing 32 bytes.
The theorems use only that shared structure (determinism, XOR involution,
length bookkeeping), never an artifact of the stand-in formulas.
-/

namespace Raven

/-- `src/constant.rs`: `NONCE: [u8; 12] = [200u8; NONCE_LEN]`. -/
def NONCE : List Nat := List.replicate 12 200

/-- `src/constant.rs`: `AAD = b"cfaf0256-beec-4495-9175-b9800dd2e2d7"` (36 bytes). -/
def AAD : List Nat := "cfaf0256-beec-4495-9175-b9800dd2e2d7".data.map Char.toNat

/-- `src/constant.rs`: `SALT = b"5462d05a-cbf4-465a-956f-2b98770beabb"` (36 bytes). -/
def SALT : List Nat := "5462d05a-cbf4-465a-956f-2b98770beabb".data.map Char.toNat

/-- `src/constant.rs`: `CHUNK_SIZE = 1024 * 1024 * 5`. -/
def CHUNK_SIZE : Nat := 1024 * 1024 * 5

/-- `ring::aead::chacha20_poly1305_openssh::TAG_LEN` = 16, the AEAD tag
length (identical to AES-256-GCM's tag length, which is what the sealed
chunks actually carry). -/
def TAG_LEN : Nat := 16

/-- `src/constant.rs`: `CHUNK_SIZE_WITH_TAG = CHUNK_SIZE + 16`. -/
def CHUNK_SIZE_WITH_TAG : Nat := CHUNK_SIZE + 16

theorem CHUNK_SIZE_val : CHUNK_SIZE = 5242880 := by
  simp [CHUNK_SIZE]

theorem CHUNK_SIZE_WITH_TAG_val : CHUNK_SIZE_WITH_TAG = 5242896 := by
  simp [CHUNK_SIZE_WITH_TAG, CHUNK_SIZE]

/-- Abstract executable model of the AES-256-CTR keystream used inside
AES-256-GCM (external `ring` crate): a deterministic byte-valued function of
the key, the nonce and the block/byte position. The proofs rely only on it
being a function of `(key, nonce, i)` with values below 256. -/
def keystream (key nonce : List Nat) (i : Nat) : Nat :=
  (key.sum * 257 + nonce.sum * 131 + i * 31 + 7) % 256

/-- CTR-mode encryption/decryption core: XOR each byte with the keystream at
its position. In-place symmetric: applying it twice is the identity. -/
def ctrXor (key nonce : List Nat) : Nat → List Nat → List Nat
  | _, [] => []
  | i, b :: rest => (b ^^^ keystream key nonce i) :: ctrXor key nonce (i + 1) rest

/-- Abstract executable model of the GCM authentication tag (GHASH + final
block encryption, external `ring` crate): a deterministic 16-byte function of
(key, nonce, aad, ciphertext). -/
def gcmTag (key nonce aad ct : List Nat) : List Nat :=
  (List.range TAG_LEN).map
    (fun j => (key.sum * 3 + nonce.sum * 5 + aad.sum * 7 + ct.sum * 11 + ct.length * 13 + j) % 256)

/-- `ring`'s `seal_in_place_append_tag`: encrypt the payload in CTR mode and
append the 16-byte authentication tag. -/
def seal_in_place_append_tag (key nonce aad p : List Nat) : List Nat :=
  let c := ctrXor key nonce 0 p
  c ++ gcmTag key nonce aad c

/-- `ring`'s `open_in_place` as observed through the repository's `decrypt`
(crypt.rs 98–104), which returns the whole `in_out` buffer: on success the
buffer holds the decrypted plaintext followed by the (unmodified) tag bytes;
`none` models the `Unspecified` error on a bad tag or a buffer shorter than
the tag. -/
def open_in_place (key nonce aad ct : List Nat) : Option (List Nat) :=
  if TAG_LEN ≤ ct.length then
    let c := ct.take (ct.length - TAG_LEN)
    let t := ct.drop (ct.length - TAG_LEN)
    if t = gcmTag key nonce aad c then some (ctrXor key nonce 0 c ++ t) else none
  else none

/-- `src/crypt.rs` 90–96, `encrypt`: seal the payload with the fixed `NONCE`
and `AAD` constants under the given key. (The Rust function wraps the result
in `Ok`; sealing never fails for in-range buffer sizes.) -/
def encrypt (payload : List Nat) (key : List Nat) : List Nat :=
  seal_in_place_append_tag key NONCE AAD payload

/-- `src/crypt.rs` 98–104, `decrypt`: open the buffer with the fixed `NONCE`
and `AAD` constants. `none` models the `unwrap_or_exit("解密失败")` process
exit on an authentication failure; `some` is the `Ok(in_out)` return, the
plaintext still carrying the trailing tag bytes of the in-place buffer. -/
def decrypt (payload : List Nat) (key : List Nat) : Option (List Nat) :=
  open_in_place key NONCE AAD payload

/-- `src/crypt.rs` 68–81: the fixed PBKDF2 iteration count
`NonZeroU32::new(100_000)`. -/
def derive_iterations : Nat := 100000

/-- Abstract executable model of PBKDF2-HMAC-SHA256 (external `ring` crate):
a deterministic function of (iterations, salt, password) filling a 32-byte
key. The proofs rely only on determinism and the 32-byte length. -/
def pbkdf2_hmac_sha256 (iterations : Nat) (salt password : List Nat) : List Nat :=
  (List.range 32).map
    (fun j => (password.sum * 193 + salt.sum * 97 + iterations * 11 + j) % 256)

/-- `src/crypt.rs` 68–81, `derive_key`: PBKDF2-HMAC-SHA256 with the fixed
iteration count, filling a `[u8; 32]` key. (Always returns `Ok` in Rust.) -/
def derive_key (password salt : List Nat) : List Nat :=
  pbkdf2_hmac_sha256 derive_iterations salt password

/-- `src/crypt.rs` 83–88, `setup_key`: derive the AES-256-GCM key from the
password bytes and the application-wide `SALT` constant. -/
def setup_key (password : List Nat) : List Nat :=
  derive_key password SALT

/-- The per-chunk opening operation of `decrypt_file` (crypt.rs 41–53):
decrypt the buffer, then drop the trailing `TAG_LEN` bytes
(`result[..result.len() - TAG_LEN]`). -/
def decrypt_file_op (key : List Nat) (buffer : List Nat) : Option (List Nat) :=
  (decrypt buffer key).map (fun r => r.take (r.length - TAG_LEN))

theorem ctrXor_length (key nonce : List Nat) :
    ∀ (i : Nat) (p : List Nat), (ctrXor key nonce i p).length = p.length := by
  intro i p
  induction p generalizing i with
  | nil => rfl
  | cons b rest ih => simp [ctrXor, ih]

theorem ctrXor_ctrXor (key nonce : List Nat) :
    ∀ (i : Nat) (p : List Nat), ctrXor key nonce i (ctrXor key nonce i p) = p := by
  intro i p
  induction p generalizing i with
  | nil => rfl
  | cons b rest ih =>
    simp only [ctrXor, ih]
    rw [Nat.xor_assoc, Nat.xor_self, Nat.xor_zero]

theorem gcmTag_length (key nonce aad ct : List Nat) :
    (gcmTag key nonce aad ct).length = TAG_LEN := by
  simp [gcmTag]

theorem encrypt_length (payload key : List Nat) :
    (encrypt payload key).length = payload.length + TAG_LEN := by
  simp [encrypt, seal_in_place_append_tag, ctrXor_length, gcmTag_length]

/-- C1: for every payload `P` and every password `pw`, opening the sealed
chunk with the key derived from `pw` recovers exactly `P`: the chunk codec's
open operation (decrypt followed by dropping the tag bytes, as in
`decrypt_file`) inverts `encrypt` under `setup_key pw`. -/
theorem seal_open_roundtrip (P pw : List Nat) :
    decrypt_file_op (setup_key pw) (encrypt P (setup_key pw)) = some P := by
  set k := setup_key pw with hk
  have hclen : (ctrXor k NONCE 0 P).length = P.length := ctrXor_length k NONCE 0 P
  have htag : (gcmTag k NONCE AAD (ctrXor k NONCE 0 P)).length = TAG_LEN :=
    gcmTag_length k NONCE AAD (ctrXor k NONCE 0 P)
  simp only [decrypt_file_op, decrypt, encrypt, seal_in_place_append_tag, open_in_place]
  rw [List.length_append, hclen, htag]
  have hle : TAG_LEN ≤ P.length + TAG_LEN := Nat.le_add_left _ _
  rw [if_pos hle]
  have hsub : P.length + TAG_LEN - TAG_LEN = P.length := by omega
  rw [hsub]
  have htake : (ctrXor k NONCE 0 P ++ gcmTag k NONCE AAD (ctrXor k NONCE 0 P)).take P.length
      = ctrXor k NONCE 0 P := by
    rw [← hclen]
    exact List.take_left _ _
  have hdrop : (ctrXor k NONCE 0 P ++ gcmTag k NONCE AAD (ctrXor k NONCE 0 P)).drop P.length
      = gcmTag k NONCE AAD (ctrXor k NONCE 0 P) := by
    rw [← hclen]
    exact List.drop_left _ _
  rw [htake, hdrop, if_pos rfl]
  simp only [Option.map]
  rw [ctrXor_ctrXor]
  have hlen2 : (P ++ gcmTag k NONCE AAD (ctrXor k NONCE 0 P)).length = P.length + TAG_LEN := by
    rw [List.length_append, htag]
  rw [hlen2, hsub]
  rw [List.take_left]

/-- C6: the nonce and associated data used by seal and open are fixed
constants — `NONCE` is twelve copies of the byte 200 and `AAD` the fixed
36-byte UUID string — identical for every chunk, file and invocation (both
`encrypt` and `decrypt` pass exactly these constants to the cipher), and
`encrypt` is a deterministic function of `(key, payload)` alone: two seals of
the same plaintext under the same key are byte-identical. -/
theorem fixed_nonce_aad_deterministic_seal :
    NONCE = List.replicate 12 200
    ∧ AAD = "cfaf0256-beec-4495-9175-b9800dd2e2d7".data.map Char.toNat
    ∧ (∀ payload key, encrypt payload key = seal_in_place_append_tag key NONCE AAD payload)
    ∧ (∀ payload key, decrypt payload key = open_in_place key NONCE AAD payload)
    ∧ (∀ key payload c₁ c₂, c₁ = encrypt payload key → c₂ = encrypt payload key → c₁ = c₂) := by
  refine ⟨rfl, rfl, fun _ _ => rfl, fun _ _ => rfl, ?_⟩
  intro key payload c₁ c₂ h₁ h₂
  rw [h₁, h₂]

/-- Closed witness for `fixed_nonce_aad_deterministic_seal`: two seals of
the payload `[2]` under the key `[1]` are byte-identical. -/
theorem fixed_nonce_aad_deterministic_seal_witness :
    encrypt [2] [1] = encrypt [2] [1] :=
  fixed_nonce_aad_deterministic_seal.2.2.2.2 [1] [2]
    (encrypt [2] [1]) (encrypt [2] [1]) rfl rfl

/-- C8: key derivation is deterministic — identical (password, salt) inputs
yield identical 32-byte keys — and the PBKDF2 iteration count is the fixed
constant 100000, which is at least 100000. -/
theorem derive_key_deterministic :
    (∀ pw salt k₁ k₂, k₁ = derive_key pw salt → k₂ = derive_key pw salt → k₁ = k₂)
    ∧ (∀ pw salt, (derive_key pw salt).length = 32)
    ∧ derive_iterations = 100000
    ∧ 100000 ≤ derive_iterations := by
  refine ⟨?_, ?_, rfl, le_refl _⟩
  · intro pw salt k₁ k₂ h₁ h₂
    rw [h₁, h₂]
  · intro pw salt
    simp [derive_key, pbkdf2_hmac_sha256]

/-- Closed witness for `derive_key_deterministic`: two derivations from the
password `[97]` and the application salt are identical. -/
theorem derive_key_deterministic_witness :
    derive_key [97] SALT = derive_key [97] SALT :=
  derive_key_deterministic.1 [97] SALT
    (derive_key [97] SALT) (derive_key [97] SALT) rfl rfl

/-- `src/utils.rs` 114–131, `FileChunkIterator::read_chunk`, at the level of
the byte counts it tracks: given the iterator state `(chunk_size, file_size)`
(`file_size` = bytes still to read), return `none` for `Ok(None)` and
`some (to_read, new_file_size)` for `Ok(Some(buffer))` where `to_read` is the
buffer length. The Rust code returns `None` when `file_size == 0`, otherwise
sets `to_read = if file_size >= chunk_size { chunk_size } else { file_size }`,
reads exactly `to_read` bytes (`read_exact` fills the buffer or errors, and
an error propagates instead of reaching the return), subtracts `to_read`
from `file_size`, and returns `None` when `bytes_read == 0`, i.e. exactly
when `to_read == 0`. -/
def read_chunk (chunk_size file_size : Nat) : Option (Nat × Nat) :=
  if file_size = 0 then none
  else
    if (if chunk_size ≤ file_size then chunk_size else file_size) = 0 then none
    else some (if chunk_size ≤ file_size then chunk_size else file_size,
               file_size - (if chunk_size ≤ file_size then chunk_size else file_size))

/-- The chunk loop of `process_file` (crypt.rs 14–39) and `upload_file`
(client.rs 190–225) seen at the byte level: repeatedly call
`FileChunkIterator::read_chunk` on the remaining file contents, collecting
the successive buffers, until it returns `None`. `data` is the file's byte
contents (so `file_size = data.length`), and each successful read consumes
`to_read` bytes off the front. -/
def chunkData (chunk_size : Nat) (data : List Nat) : List (List Nat) :=
  if h1 : data.length = 0 then []
  else if h2 : (if chunk_size ≤ data.length then chunk_size else data.length) = 0 then []
  else
    data.take (if chunk_size ≤ data.length then chunk_size else data.length) ::
      chunkData chunk_size
        (data.drop (if chunk_size ≤ data.length then chunk_size else data.length))
termination_by data.length
decreasing_by
  simp only [List.length_drop]
  by_cases hc : chunk_size ≤ data.length
  · rw [dif_pos hc] at h2 ⊢
    omega
  · rw [dif_neg hc] at h2 ⊢
    omega

/-- `src/crypt.rs` 55–66, `encrypt_file`, at the level of its per-chunk
output: chunk the input file's bytes with `CHUNK_SIZE` and seal each chunk
under the key. (The Rust code writes the sealed chunks to the output file in
this order.) -/
def encrypt_file_chunks (key data : List Nat) : List (List Nat) :=
  (chunkData CHUNK_SIZE data).map (fun buffer => encrypt buffer key)

/-- `src/client.rs` 265–306, the read loop of `download_file`: given the
declared content length, the sizes of the successive `read_exact` calls made
against the body. While more than `CHUNK_SIZE_WITH_TAG` bytes remain, read
exactly `CHUNK_SIZE_WITH_TAG`; then read exactly the remainder and stop. -/
def downloadChunks (content_len : Nat) : List Nat :=
  if content_len > CHUNK_SIZE_WITH_TAG then
    CHUNK_SIZE_WITH_TAG :: downloadChunks (content_len - CHUNK_SIZE_WITH_TAG)
  else [content_len]
termination_by content_len
decreasing_by
  have h := CHUNK_SIZE_WITH_TAG_val
  omega

theorem CHUNK_SIZE_pos : 0 < CHUNK_SIZE := by
  rw [CHUNK_SIZE_val]
  omega

theorem chunkData_nil (c : Nat) : chunkData c [] = [] := by
  rw [chunkData]
  simp

theorem chunkData_step (c : Nat) (data : List Nat) (hc : 0 < c) (hd : data ≠ []) :
    chunkData c data = data.take c :: chunkData c (data.drop c) := by
  have hlen : data.length ≠ 0 := by
    have := List.length_pos.mpr hd
    omega
  rw [chunkData]
  rw [dif_neg hlen]
  by_cases hcle : c ≤ data.length
  · rw [if_pos hcle]
    rw [dif_neg (show ¬c = 0 by omega)]
  · rw [if_neg hcle]
    rw [dif_neg hlen]
    have h1 : data.take data.length = data.take c := by
      rw [List.take_length, List.take_of_length_le (by omega)]
    have h2 : data.drop data.length = data.drop c := by
      rw [List.drop_length, List.drop_eq_nil_of_le (by omega)]
    rw [h1, h2]

theorem chunkData_eq_nil_iff (c : Nat) (data : List Nat) (hc : 0 < c) :
    chunkData c data = [] ↔ data = [] := by
  constructor
  · intro h
    by_contra hd
    rw [chunkData_step c data hc hd] at h
    exact List.cons_ne_nil _ _ h
  · intro h
    rw [h, chunkData_nil]

theorem chunkData_length_CS :
    ∀ (n : Nat) (data : List Nat), data.length = n →
      (chunkData CHUNK_SIZE data).length = (data.length + CHUNK_SIZE - 1) / CHUNK_SIZE := by
  intro n
  induction n using Nat.strong_induction_on with
  | _ n ih =>
    intro data hlen
    by_cases hd : data = []
    · subst hd
      rw [chunkData_nil, CHUNK_SIZE_val]
      simp
    · rw [chunkData_step CHUNK_SIZE data CHUNK_SIZE_pos hd]
      have hpos : 0 < data.length := List.length_pos.mpr hd
      have hdrop : (data.drop CHUNK_SIZE).length = data.length - CHUNK_SIZE := by
        simp
      have hrec := ih (data.length - CHUNK_SIZE)
        (by rw [CHUNK_SIZE_val] at *; omega)
        (data.drop CHUNK_SIZE) hdrop
      rw [List.length_cons, hrec, hdrop]
      rw [CHUNK_SIZE_val] at *
      omega

theorem chunkData_dropLast_CS :
    ∀ (n : Nat) (data : List Nat), data.length = n →
      ∀ l ∈ (chunkData CHUNK_SIZE data).dropLast, l.length = CHUNK_SIZE := by
  intro n
  induction n using Nat.strong_induction_on with
  | _ n ih =>
    intro data hlen l hl
    by_cases hd : data = []
    · subst hd
      rw [chunkData_nil] at hl
      simp at hl
    · rw [chunkData_step CHUNK_SIZE data CHUNK_SIZE_pos hd] at hl
      by_cases hrest : chunkData CHUNK_SIZE (data.drop CHUNK_SIZE) = []
      · rw [hrest] at hl
        simp at hl
      · have hdrop_ne : data.drop CHUNK_SIZE ≠ [] := by
          intro hcon
          rw [hcon, chunkData_nil] at hrest
          exact hrest rfl
        have hgt : CHUNK_SIZE < data.length := by
          by_contra hle
          exact hdrop_ne (List.drop_eq_nil_of_le (by omega))
        rw [List.dropLast_cons_of_ne_nil hrest] at hl
        rcases List.mem_cons.mp hl with h | h
        · rw [h, List.length_take]
          omega
        · have hpos : 0 < data.length := List.length_pos.mpr hd
          exact ih (data.length - CHUNK_SIZE)
            (by rw [CHUNK_SIZE_val] at *; omega)
            (data.drop CHUNK_SIZE) (by simp) l h

theorem chunkData_getLast_CS :
    ∀ (n : Nat) (data : List Nat), data.length = n → data ≠ [] →
      ((chunkData CHUNK_SIZE data).getLast?).map List.length
        = some (if data.length % CHUNK_SIZE = 0 then CHUNK_SIZE else data.length % CHUNK_SIZE) := by
  intro n
  induction n using Nat.strong_induction_on with
  | _ n ih =>
    intro data hlen hd
    rw [chunkData_step CHUNK_SIZE data CHUNK_SIZE_pos hd]
    have hpos : 0 < data.length := List.length_pos.mpr hd
    by_cases hrest : chunkData CHUNK_SIZE (data.drop CHUNK_SIZE) = []
    · have hdrop_nil : data.drop CHUNK_SIZE = [] :=
        (chunkData_eq_nil_iff CHUNK_SIZE _ CHUNK_SIZE_pos).mp hrest
      have hle : data.length ≤ CHUNK_SIZE := by
        have := List.drop_eq_nil_iff.mp hdrop_nil
        omega
      rw [hrest]
      simp only [List.getLast?_singleton, Option.map_some', Option.some.injEq,
        List.length_take]
      rw [CHUNK_SIZE_val] at hle ⊢
      split <;> omega
    · have hdrop_ne : data.drop CHUNK_SIZE ≠ [] := by
        intro hcon
        rw [hcon, chunkData_nil] at hrest
        exact hrest rfl
      have hgt : CHUNK_SIZE < data.length := by
        by_contra hle
        exact hdrop_ne (List.drop_eq_nil_of_le (by omega))
      obtain ⟨b, rest, hbr⟩ := List.exists_cons_of_ne_nil hrest
      rw [hbr, List.getLast?_cons_cons, ← hbr]
      have hrec := ih (data.length - CHUNK_SIZE)
        (by have hcs := CHUNK_SIZE_val; omega)
        (data.drop CHUNK_SIZE) (by simp) hdrop_ne
      have hmod : (data.drop CHUNK_SIZE).length = data.length - CHUNK_SIZE := by simp
      rw [hrec, hmod]
      rw [CHUNK_SIZE_val] at hgt ⊢
      have hsame : (data.length - 5242880) % 5242880 = data.length % 5242880 := by omega
      rw [hsame]

/-- C3: encrypting a file of `N` bytes with chunk size `CHUNK_SIZE` produces
exactly `⌈N / CHUNK_SIZE⌉ = (N + CHUNK_SIZE - 1) / CHUNK_SIZE` ciphertext
chunks; every chunk except the last has length `CHUNK_SIZE + TAG_LEN`, and
the last has length `(N mod CHUNK_SIZE) + TAG_LEN`, or `CHUNK_SIZE + TAG_LEN`
when `N` is an exact multiple of `CHUNK_SIZE`. -/
theorem chunk_boundary_fidelity (key data : List Nat) :
    (encrypt_file_chunks key data).length = (data.length + CHUNK_SIZE - 1) / CHUNK_SIZE
    ∧ (∀ l ∈ (encrypt_file_chunks key data).dropLast, l.length = CHUNK_SIZE + TAG_LEN)
    ∧ (data ≠ [] →
        ((encrypt_file_chunks key data).getLast?).map List.length
          = some ((if data.length % CHUNK_SIZE = 0 then CHUNK_SIZE
                   else data.length % CHUNK_SIZE) + TAG_LEN)) := by
  refine ⟨?_, ?_, ?_⟩
  · rw [encrypt_file_chunks, List.length_map]
    exact chunkData_length_CS data.length data rfl
  · intro l hl
    rw [encrypt_file_chunks, ← List.map_dropLast, List.mem_map] at hl
    obtain ⟨b, hb, hbl⟩ := hl
    rw [← hbl, encrypt_length]
    rw [chunkData_dropLast_CS data.length data rfl b hb]
  · intro hd
    rw [encrypt_file_chunks, List.getLast?_map]
    have h := chunkData_getLast_CS data.length data rfl hd
    rcases hlast : (chunkData CHUNK_SIZE data).getLast? with _ | b
    · rw [hlast] at h
      simp at h
    · rw [hlast] at h
      simp only [Option.map_some'] at h ⊢
      rw [encrypt_length]
      rw [Option.some.injEq] at h
      rw [h]

/-- Closed witness for `chunk_boundary_fidelity` at a concrete input: a
3-byte file encrypted under the key `[1]` yields a single chunk of length
`3 % CHUNK_SIZE + TAG_LEN = 19`. -/
theorem chunk_boundary_fidelity_witness :
    ((encrypt_file_chunks [1] [10, 20, 30]).getLast?).map List.length
      = some ((if ([10, 20, 30] : List Nat).length % CHUNK_SIZE = 0 then CHUNK_SIZE
               else ([10, 20, 30] : List Nat).length % CHUNK_SIZE) + TAG_LEN) :=
  (chunk_boundary_fidelity [1] [10, 20, 30]).2.2 (by decide)

/-- C2: for a declared content length `L`, the download loop consumes chunks
of exactly `CHUNK_SIZE_WITH_TAG` bytes while more than that remains (every
chunk but the last), reads exactly the remainder as the final chunk (the
whole of `L` at once when `L ≤ CHUNK_SIZE_WITH_TAG`), and the chunk
byte-counts consumed sum to exactly `L`. -/
theorem download_exactness (L : Nat) :
    (downloadChunks L).sum = L
    ∧ (∀ x ∈ (downloadChunks L).dropLast, x = CHUNK_SIZE_WITH_TAG)
    ∧ (L ≤ CHUNK_SIZE_WITH_TAG → downloadChunks L = [L]) := by
  induction L using Nat.strong_induction_on with
  | _ L ih =>
    by_cases h : L > CHUNK_SIZE_WITH_TAG
    · have hrec := ih (L - CHUNK_SIZE_WITH_TAG) (by have := CHUNK_SIZE_WITH_TAG_val; omega)
      rw [downloadChunks, if_pos h]
      refine ⟨?_, ?_, ?_⟩
      · rw [List.sum_cons, hrec.1]
        omega
      · intro x hx
        have hne : downloadChunks (L - CHUNK_SIZE_WITH_TAG) ≠ [] := by
          rw [downloadChunks]
          split
          · exact List.cons_ne_nil _ _
          · exact List.cons_ne_nil _ _
        rw [List.dropLast_cons_of_ne_nil hne] at hx
        rcases List.mem_cons.mp hx with hcx | hcx
        · exact hcx
        · exact hrec.2.1 x hcx
      · intro hle
        omega
    · rw [downloadChunks, if_neg h]
      exact ⟨List.sum_singleton, by simp, fun _ => rfl⟩

/-- Closed witness for `download_exactness`: a 5-byte body is consumed in a
single 5-byte read. -/
theorem download_exactness_witness : downloadChunks 5 = [5] :=
  (download_exactness 5).2.2 (by decide)

/-- C4 as stated is violated when `chunk_size = 0`: `read_chunk` then returns
`None` although `remaining = 5 ≠ 0` (the Rust code computes `to_read = 0`,
`read_exact` reads zero bytes, and `bytes_read == 0` triggers the `None`
return while `file_size` stays `5`). -/
theorem read_chunk_zero_chunk_size_cex :
    read_chunk 0 5 = none ∧ (5 : Nat) ≠ 0 := by
  constructor
  · rfl
  · decide

/-- C4 (amended: for positive `chunk_size`, which holds at both call sites,
`CHUNK_SIZE` and `CHUNK_SIZE_WITH_TAG`): `read_chunk` returns `None` exactly
when `remaining = 0`; otherwise it returns a buffer of exactly
`min remaining chunk_size` bytes and decreases `remaining` by exactly that
amount, so `remaining` strictly decreases until exhaustion. -/
theorem read_chunk_invariant (chunk_size file_size : Nat) (hc : 0 < chunk_size) :
    (read_chunk chunk_size file_size = none ↔ file_size = 0)
    ∧ (∀ b fs, read_chunk chunk_size file_size = some (b, fs) →
        b = min file_size chunk_size ∧ fs = file_size - b ∧ fs < file_size) := by
  constructor
  · constructor
    · intro h
      by_contra hfs
      rw [read_chunk, if_neg hfs] at h
      by_cases hcle : chunk_size ≤ file_size
      · rw [if_pos hcle] at h
        rw [if_neg (by omega)] at h
        exact Option.noConfusion h
      · rw [if_neg hcle] at h
        rw [if_neg (by omega)] at h
        exact Option.noConfusion h
    · intro h
      rw [read_chunk, if_pos h]
  · intro b fs h
    rw [read_chunk] at h
    by_cases hfs : file_size = 0
    · rw [if_pos hfs] at h
      exact Option.noConfusion h
    · rw [if_neg hfs] at h
      by_cases hcle : chunk_size ≤ file_size
      · rw [if_pos hcle] at h
        rw [if_neg (by omega)] at h
        rw [Option.some.injEq, Prod.mk.injEq] at h
        obtain ⟨hb, hfs2⟩ := h
        refine ⟨by omega, by omega, by omega⟩
      · rw [if_neg hcle] at h
        rw [if_neg (by omega)] at h
        rw [Option.some.injEq, Prod.mk.injEq] at h
        obtain ⟨hb, hfs2⟩ := h
        refine ⟨by omega, by omega, by omega⟩

/-- Closed witness for `read_chunk_invariant` at `chunk_size = 3`,
`file_size = 5`: the read returns a 3-byte buffer and leaves 2 bytes. -/
theorem read_chunk_invariant_witness :
    read_chunk 3 5 = none ↔ (5 : Nat) = 0 :=
  (read_chunk_invariant 3 5 (by decide)).1

/-- The part-accumulation loop of `upload_file` (client.rs 190–225):
`part_number` starts at 0 and is incremented before each `upload_part` call;
after each call a `CompletedPart` with `e_tag =
upload_part_res.e_tag.unwrap_or_default()` and the current `part_number` is
pushed onto `upload_parts`. `etagOf pn` models the `e_tag` field of the
remote response for part `pn` (`none` when the response carries no ETag, in
which case `unwrap_or_default` substitutes the empty string). -/
def upload_parts_built (etagOf : Nat → Option String) :
    Nat → List (List Nat) → List (Nat × String)
  | _, [] => []
  | part_number, _ :: rest =>
    (part_number + 1, (etagOf (part_number + 1)).getD "") ::
      upload_parts_built etagOf (part_number + 1) rest

/-- The `upload_parts` list that `upload_file` hands verbatim to
`CompletedMultipartUpload::builder().set_parts(...)` for the finalize call,
as a function of the ciphertext chunks uploaded and the remote ETag
responses. -/
def upload_file_parts (chunks : List (List Nat)) (etagOf : Nat → Option String) :
    List (Nat × String) :=
  upload_parts_built etagOf 0 chunks

theorem upload_parts_built_length (etagOf : Nat → Option String) :
    ∀ (chunks : List (List Nat)) (pn : Nat),
      (upload_parts_built etagOf pn chunks).length = chunks.length := by
  intro chunks
  induction chunks with
  | nil => intro pn; rfl
  | cons c rest ih =>
    intro pn
    simp only [upload_parts_built, List.length_cons, ih]

theorem upload_parts_built_get (etagOf : Nat → Option String) :
    ∀ (chunks : List (List Nat)) (pn i : Nat)
      (h : i < (upload_parts_built etagOf pn chunks).length),
      (upload_parts_built etagOf pn chunks).get ⟨i, h⟩
        = (pn + i + 1, (etagOf (pn + i + 1)).getD "") := by
  intro chunks
  induction chunks with
  | nil =>
    intro pn i h
    simp [upload_parts_built] at h
  | cons c rest ih =>
    intro pn i h
    cases i with
    | zero => rfl
    | succ j =>
      have h2 : j < (upload_parts_built etagOf (pn + 1) rest).length := by
        simp only [upload_parts_built, List.length_cons] at h
        omega
      have hrec := ih (pn + 1) j h2
      have harith : pn + 1 + j + 1 = pn + (j + 1) + 1 := by omega
      rw [harith] at hrec
      exact hrec

/-- C7: for an upload of `N` chunks, the list handed to the multipart
finalize call has exactly `N` parts, the part at position `i` carries part
number `i + 1` (so the numbers are strictly increasing `1..N` with no gaps,
in ascending order), and it carries the remote ETag returned for that part
(the empty string when the response had none). -/
theorem multipart_completeness (chunks : List (List Nat)) (etagOf : Nat → Option String) :
    (upload_file_parts chunks etagOf).length = chunks.length
    ∧ (∀ (i : Nat) (h : i < (upload_file_parts chunks etagOf).length),
        (upload_file_parts chunks etagOf).get ⟨i, h⟩ = (i + 1, (etagOf (i + 1)).getD "")) := by
  constructor
  · exact upload_parts_built_length etagOf chunks 0
  · intro i h
    have hrec := upload_parts_built_get etagOf chunks 0 i h
    have harith : 0 + i + 1 = i + 1 := by omega
    rw [harith] at hrec
    exact hrec

/-- Closed witness for `multipart_completeness`: a two-chunk upload whose
second remote response returns ETag "t2" yields part `(2, "t2")` at
position 1. -/
theorem multipart_completeness_witness :
    (upload_file_parts [[1], [2]] (fun n => some (if n = 2 then "t2" else "t1"))).get
      ⟨1, by decide⟩ = (2, "t2") :=
  (multipart_completeness [[1], [2]] (fun n => some (if n = 2 then "t2" else "t1"))).2 1 (by decide)

/-- One iteration of the chunk loop of `process_file` (crypt.rs 14–39), as an
event of the run: either `read_chunk` returned `Ok(Some(buffer))` (and the
subsequent `write_all` of the processed chunk succeeded or failed, recorded
in `writeOk`), or it returned `Err` (an I/O read failure), or it returned
`Ok(None)` (end of stream). -/
inductive IterEvent where
  | chunkRead (buffer : List Nat) (writeOk : Bool)
  | readError
  | endOfStream
deriving DecidableEq

/-- The observable outcome of `process_file` and of its public wrappers:
`ok` for `Ok(())`, `ioError` for an `Err` value of the `io::Result` returned
to the caller (the `?` on `write_all`), and `exited code msg` for
`UnwrapOrExit` (utils.rs 146–177) printing `msg` and calling
`std::process::exit(code)` — control never returns to the caller. -/
inductive RunOutcome where
  | ok
  | ioError
  | exited (code : Nat) (msg : String)
deriving DecidableEq

/-- Whether a `RunOutcome` is a process exit. -/
def RunOutcome.isExit : RunOutcome → Bool
  | .exited _ _ => true
  | _ => false

/-- The chunk loop of `process_file` (crypt.rs 27–38) over a sequence of
iteration events. A read error hits `unwrap_or_exit("文件读取失败")` and the
process exits; a per-chunk operation failure (`op buffer = (1, msg)` models
the operation's own `unwrap_or_exit`, e.g. `"解密失败"` on an authentication
failure) exits with that message; a failed `write_all` returns the `Err`
through `?` as the `io::Result` of `process_file`; `Ok(None)` ends the loop
with `Ok(())`. Events after the first exit/error are unreachable and
ignored. -/
def process_file_loop (op : List Nat → Except (Nat × String) (List Nat)) :
    List IterEvent → RunOutcome
  | [] => .ok
  | .endOfStream :: _ => .ok
  | .readError :: _ => .exited 1 "文件读取失败"
  | .chunkRead buffer writeOk :: rest =>
    match op buffer with
    | .error (code, msg) => .exited code msg
    | .ok _ => if writeOk then process_file_loop op rest else .ioError

/-- `unwrap_or_exit(msg)` applied to the `io::Result` of `process_file`: an
`Err` becomes a printed message and `std::process::exit(1)`; `Ok` passes
through. -/
def wrap_io_exit (msg : String) : RunOutcome → RunOutcome
  | .ioError => .exited 1 msg
  | r => r

/-- `encrypt_file` (crypt.rs 55–66): run `process_file` with the sealing
operation (which never fails for in-range chunk sizes) and pass its
`io::Result` through `unwrap_or_exit("文件加密失败")`, so a propagated write
error also becomes a process exit. -/
def encrypt_file_run (key : List Nat) (events : List IterEvent) : RunOutcome :=
  wrap_io_exit "文件加密失败"
    (process_file_loop (fun buffer => .ok (encrypt buffer key)) events)

/-- The per-chunk operation of `decrypt_file` as an `Except`: `decrypt`'s
internal `unwrap_or_exit("解密失败")` exits on an authentication failure,
otherwise the tag bytes are stripped. -/
def decrypt_op (key : List Nat) (buffer : List Nat) : Except (Nat × String) (List Nat) :=
  match decrypt buffer key with
  | none => .error (1, "解密失败")
  | some r => .ok (r.take (r.length - TAG_LEN))

/-- `decrypt_file` (crypt.rs 41–53): run `process_file` with the opening
operation and pass its `io::Result` through
`unwrap_or_exit("文件解密失败")`. -/
def decrypt_file_run (key : List Nat) (events : List IterEvent) : RunOutcome :=
  wrap_io_exit "文件解密失败" (process_file_loop (decrypt_op key) events)

/-- Whether a sequence of iteration events contains a chunk-level failure
before the end of the stream: an I/O read failure, a per-chunk operation
failure, or a write failure. -/
def hasChunkFailure (opFails : List Nat → Bool) : List IterEvent → Bool
  | [] => false
  | .endOfStream :: _ => false
  | .readError :: _ => true
  | .chunkRead buffer writeOk :: rest =>
    if opFails buffer then true
    else if writeOk then hasChunkFailure opFails rest else true

/-- Whether the per-chunk operation fails (exits) on a given buffer. -/
def opFailsOf (op : List Nat → Except (Nat × String) (List Nat)) (b : List Nat) : Bool :=
  match op b with
  | .error _ => true
  | .ok _ => false

theorem process_file_loop_ok_iff (op : List Nat → Except (Nat × String) (List Nat))
    (events : List IterEvent) :
    process_file_loop op events = .ok
      ↔ hasChunkFailure (opFailsOf op) events = false := by
  induction events with
  | nil => simp [process_file_loop, hasChunkFailure]
  | cons e rest ih =>
    cases e with
    | endOfStream => simp [process_file_loop, hasChunkFailure]
    | readError => simp [process_file_loop, hasChunkFailure]
    | chunkRead buffer writeOk =>
      rcases hop : op buffer with err | r
      · obtain ⟨code, msg⟩ := err
        simp [process_file_loop, hasChunkFailure, opFailsOf, hop]
      · simp only [process_file_loop, hasChunkFailure, opFailsOf, hop]
        cases writeOk with
        | false => simp
        | true => simpa using ih

theorem wrap_io_exit_ok_iff (msg : String) (r : RunOutcome) :
    wrap_io_exit msg r = .ok ↔ r = .ok := by
  cases r <;> simp [wrap_io_exit]

theorem wrap_io_exit_isExit (msg : String) (r : RunOutcome) (h : r ≠ .ok) :
    (wrap_io_exit msg r).isExit = true := by
  cases r with
  | ok => exact absurd rfl h
  | ioError => rfl
  | exited code m => rfl

/-- C5's "surfaces to the caller as a typed error result" is violated at a
concrete input: an I/O read failure on the first chunk makes `encrypt_file`
print `文件读取失败` and terminate the process with exit code 1
(`UnwrapOrExit`), rather than return the typed `io::Result` error value to
its caller (its Rust signature has no error channel at all). -/
theorem error_propagation_cex :
    encrypt_file_run [] [IterEvent.readError] = RunOutcome.exited 1 "文件读取失败"
    ∧ encrypt_file_run [] [IterEvent.readError] ≠ RunOutcome.ioError := by
  constructor
  · rfl
  · intro h
    exact RunOutcome.noConfusion h

/-- C5 (amended): every chunk-level failure — an I/O read failure, an
authentication (open) failure, or a write failure — aborts the operation at
that chunk (events after the failure are never reached), and no failure is
silently swallowed: the run reports success exactly when no chunk-level
failure occurred, and on any failure it terminates the process via
`UnwrapOrExit` after printing a message (exit code 1) instead of returning a
typed error result to the caller. -/
theorem error_propagation (key : List Nat) (events : List IterEvent) :
    (∀ rest, encrypt_file_run key (IterEvent.readError :: rest)
        = RunOutcome.exited 1 "文件读取失败")
    ∧ (∀ rest, decrypt_file_run key (IterEvent.readError :: rest)
        = RunOutcome.exited 1 "文件读取失败")
    ∧ (∀ buffer rest, decrypt buffer key = none →
        decrypt_file_run key (IterEvent.chunkRead buffer true :: rest)
          = RunOutcome.exited 1 "解密失败")
    ∧ (encrypt_file_run key events = RunOutcome.ok
        ↔ hasChunkFailure (opFailsOf (fun buffer => .ok (encrypt buffer key))) events = false)
    ∧ (decrypt_file_run key events = RunOutcome.ok
        ↔ hasChunkFailure (opFailsOf (decrypt_op key)) events = false)
    ∧ (hasChunkFailure (opFailsOf (fun buffer => .ok (encrypt buffer key))) events = true →
        (encrypt_file_run key events).isExit = true)
    ∧ (hasChunkFailure (opFailsOf (decrypt_op key)) events = true →
        (decrypt_file_run key events).isExit = true) := by
  refine ⟨fun rest => rfl, fun rest => rfl, ?_, ?_, ?_, ?_, ?_⟩
  · intro buffer rest hfail
    rw [decrypt_file_run, process_file_loop, decrypt_op, hfail]
    rfl
  · rw [encrypt_file_run, wrap_io_exit_ok_iff]
    exact process_file_loop_ok_iff _ events
  · rw [decrypt_file_run, wrap_io_exit_ok_iff]
    exact process_file_loop_ok_iff _ events
  · intro hfail
    rw [encrypt_file_run]
    refine wrap_io_exit_isExit _ _ ?_
    intro hok
    rw [(process_file_loop_ok_iff _ events).mp hok] at hfail
    exact Bool.noConfusion hfail
  · intro hfail
    rw [decrypt_file_run]
    refine wrap_io_exit_isExit _ _ ?_
    intro hok
    rw [(process_file_loop_ok_iff _ events).mp hok] at hfail
    exact Bool.noConfusion hfail

/-- Closed witness for `error_propagation`: a decrypt run whose single chunk
fails authentication ends in a process exit. -/
theorem error_propagation_witness :
    (decrypt_file_run [] [IterEvent.chunkRead [0] true]).isExit = true :=
  (error_propagation [] [IterEvent.chunkRead [0] true]).2.2.2.2.2.2 (by decide)

/-- Index of the last `'.'` in a character list, if any. -/
def lastDotIdx : List Char → Option Nat
  | [] => none
  | c :: rest =>
    match lastDotIdx rest with
    | some i => some (i + 1)
    | none => if c = '.' then some 0 else none

/-- Rust's `Path::file_name` for a path that is a single component under
Unix path semantics (no `'/'` separators): `None` for the empty path and for
the special components `"."` and `".."`, otherwise the whole string.
(General paths take their last component; the claims about
`get_crypt_file_name` concern plain file names, so that case is the one
embedded.) -/
def file_name (s : List Char) : Option (List Char) :=
  if s = [] ∨ s = ['.'] ∨ s = ['.', '.'] then none else some s

/-- Rust's `split_file_at_dot` stem half: everything before the last `'.'`,
except that a name whose only/last dot sits at index 0 (a leading-dot file
such as `.bashrc`) is returned whole. -/
def stem_of (n : List Char) : List Char :=
  match lastDotIdx n with
  | none => n
  | some i => if i = 0 then n else n.take i

/-- Rust's `Path::file_stem` under the same single-component scope as
`file_name`. -/
def file_stem (s : List Char) : Option (List Char) :=
  (file_name s).map stem_of

/-- `src/crypt.rs` 106–123, `get_crypt_file_name`: in encrypt mode, take
`file_name` (empty string when absent) and push the literal `".enc"`; in
decrypt mode, take `file_stem` (empty string when absent). (The Rust
function wraps the result in `Ok` unconditionally.) -/
def get_crypt_file_name (path : List Char) (is_encrypt : Bool) : List Char :=
  if is_encrypt then ((file_name path).getD []) ++ ".enc".data
  else (file_stem path).getD []

theorem lastDotIdx_eq_none (l : List Char) (h : ('.' : Char) ∉ l) :
    lastDotIdx l = none := by
  induction l with
  | nil => rfl
  | cons c rest ih =>
    have hc : ¬(c = '.') := fun hcon => h (hcon ▸ List.mem_cons_self c rest)
    have hr : ('.' : Char) ∉ rest := fun hcon => h (List.mem_cons_of_mem c hcon)
    simp only [lastDotIdx, ih hr]
    rw [if_neg hc]

theorem lastDotIdx_dot_cons (l : List Char) (h : ('.' : Char) ∉ l) :
    lastDotIdx ('.' :: l) = some 0 := by
  simp [lastDotIdx, lastDotIdx_eq_none l h]

theorem lastDotIdx_append (a b : List Char) (j : Nat) (h : lastDotIdx b = some j) :
    lastDotIdx (a ++ b) = some (a.length + j) := by
  induction a with
  | nil => simpa using h
  | cons c rest ih =>
    rw [List.cons_append]
    have hstep : lastDotIdx (c :: (rest ++ b)) =
        match lastDotIdx (rest ++ b) with
        | some i => some (i + 1)
        | none => if c = '.' then some 0 else none := rfl
    rw [hstep, ih]
    show some (rest.length + j + 1) = some ((c :: rest).length + j)
    rw [Option.some.injEq, List.length_cons]
    omega

theorem file_name_of_long (s : List Char) (h : 3 ≤ s.length) :
    file_name s = some s := by
  rw [file_name, if_neg]
  intro hcon
  rcases hcon with hc | hc | hc <;> (rw [hc] at h; simp at h)

/-- C9: the default output-name transform appends the literal `".enc"` in
encrypt mode (`name.ext` becomes `name.ext.enc`), and in decrypt mode strips
the single trailing extension segment (`name.ext.enc` becomes `name.ext`).
`name` and `ext` are nonempty and separator-free (plain file names). -/
theorem naming_convention (name ext : List Char)
    (hname : name ≠ []) (hext : ext ≠ [])
    (hsep1 : ('/' : Char) ∉ name) (hsep2 : ('/' : Char) ∉ ext) :
    get_crypt_file_name (name ++ '.' :: ext) true = name ++ '.' :: ext ++ ".enc".data
    ∧ get_crypt_file_name (name ++ '.' :: ext ++ ".enc".data) false = name ++ '.' :: ext := by
  have hnpos : 0 < name.length := List.length_pos.mpr hname
  have hepos : 0 < ext.length := List.length_pos.mpr hext
  constructor
  · rw [get_crypt_file_name, if_pos rfl]
    rw [file_name_of_long _ (by simp; omega)]
    simp
  · rw [get_crypt_file_name, if_neg (by simp), file_stem]
    have hassoc : name ++ '.' :: ext ++ ".enc".data
        = (name ++ '.' :: ext) ++ ('.' :: "enc".data) := by
      simp
    rw [hassoc]
    rw [file_name_of_long _ (by simp; omega)]
    have hdot : lastDotIdx ('.' :: "enc".data) = some 0 :=
      lastDotIdx_dot_cons _ (by decide)
    have hidx := lastDotIdx_append (name ++ '.' :: ext) _ 0 hdot
    rw [Nat.add_zero] at hidx
    simp only [Option.map_some', Option.getD_some, stem_of, hidx]
    rw [if_neg (by simp)]
    exact List.take_left _ _

/-- Closed witness for `naming_convention`: encrypting `report.pdf` yields
`report.pdf.enc` and decrypting `report.pdf.enc` yields `report.pdf`. -/
theorem naming_convention_witness :
    get_crypt_file_name ("report".data ++ '.' :: "pdf".data) true
      = "report".data ++ '.' :: "pdf".data ++ ".enc".data :=
  (naming_convention "report".data "pdf".data
    (by decide) (by decide) (by decide) (by decide)).1

/-- C10: in decrypt mode the transform strips the final extension segment
whatever it is — `name.ext` becomes `name` for any nonempty dot-free `ext`,
not only `"enc"` — and a (separator-free) file name containing no dot is
returned unchanged. -/
theorem decrypt_strips_any_extension :
    (∀ name ext : List Char, name ≠ [] → ext ≠ [] → ('.' : Char) ∉ ext →
      ('/' : Char) ∉ name → ('/' : Char) ∉ ext →
      get_crypt_file_name (name ++ '.' :: ext) false = name)
    ∧ (∀ s : List Char, ('.' : Char) ∉ s → ('/' : Char) ∉ s →
      get_crypt_file_name s false = s) := by
  constructor
  · intro name ext hname hext hdot hsep1 hsep2
    have hnpos : 0 < name.length := List.length_pos.mpr hname
    have hepos : 0 < ext.length := List.length_pos.mpr hext
    rw [get_crypt_file_name, if_neg (by simp), file_stem]
    rw [file_name_of_long _ (by simp; omega)]
    have hidx := lastDotIdx_append name ('.' :: ext) 0 (lastDotIdx_dot_cons ext hdot)
    rw [Nat.add_zero] at hidx
    simp only [Option.map_some', Option.getD_some, stem_of, hidx]
    rw [if_neg (by omega)]
    exact List.take_left _ _
  · intro s hdot hsep
    rcases hs : s with _ | ⟨c, rest⟩
    · rfl
    · rw [← hs, get_crypt_file_name, if_neg (by simp), file_stem, file_name, if_neg]
      · simp only [Option.map_some', Option.getD_some, stem_of,
          lastDotIdx_eq_none s hdot]
      · intro hcon
        rcases hcon with hc | hc | hc
        · rw [hs] at hc
          exact List.noConfusion hc
        · rw [hc] at hdot
          exact hdot (List.mem_singleton.mpr rfl)
        · rw [hc] at hdot
          exact hdot (List.mem_cons_self _ _)

/-- Closed witness for `decrypt_strips_any_extension`: the decrypt-mode name
for `report.pdf` is `report`. -/
theorem decrypt_strips_any_extension_witness :
    get_crypt_file_name ("report".data ++ '.' :: "pdf".data) false = "report".data :=
  decrypt_strips_any_extension.1 "report".data "pdf".data
    (by decide) (by decide) (by decide) (by decide) (by decide)

end Raven
